import Mathlib

/-!
Verification of the track-ingestion-and-interaction engine of the quilt
repository (src/src/components/ElevationProfile.tsx, multi-track variant).

The development shallowly embeds the component's pure computations and its
stateful interaction logic:

* real numbers model the JavaScript floating-point values (exact real
  arithmetic; NaN propagation is modelled only where a claim is about it);
* the GPX parser loop, the aggregation of per-track statistics, the
  multi-track loader loop, the nearest-point scan and the interaction
  state machine are translated function by function from the source;
* stateful hooks (useState / useEffect) become explicit state records and
  step functions over event lists.
-/

namespace Quilt

/-! ## Geodesic distance module (source lines 297-318) -/

/-- Model of the JavaScript builtin Math.atan2 (external to the repository),
restricted to real arguments: quadrant-aware arctangent. -/
noncomputable def atan2 (y x : ℝ) : ℝ :=
  if 0 < x then Real.arctan (y / x)
  else if x < 0 then
    (if 0 ≤ y then Real.arctan (y / x) + Real.pi
     else Real.arctan (y / x) - Real.pi)
  else
    (if 0 < y then Real.pi / 2
     else if y < 0 then -(Real.pi / 2)
     else 0)

/-- Intermediate value a of the haversine formula, translated from the body of
haversineDistance: a = sin(dPhi/2)^2 + cos(phi1) * cos(phi2) * sin(dLambda/2)^2
with dPhi = (lat2 - lat1) * pi / 180 and dLambda = (lon2 - lon1) * pi / 180. -/
noncomputable def havA (lat1 lon1 lat2 lon2 : ℝ) : ℝ :=
  Real.sin ((lat2 - lat1) * Real.pi / 180 / 2) *
      Real.sin ((lat2 - lat1) * Real.pi / 180 / 2) +
    Real.cos (lat1 * Real.pi / 180) * Real.cos (lat2 * Real.pi / 180) *
      Real.sin ((lon2 - lon1) * Real.pi / 180 / 2) *
      Real.sin ((lon2 - lon1) * Real.pi / 180 / 2)

/-- Translation of haversineDistance: R * c with R = 6371000 and
c = 2 * atan2(sqrt(a), sqrt(1 - a)). -/
noncomputable def haversineDistance (lat1 lon1 lat2 lon2 : ℝ) : ℝ :=
  6371000 *
    (2 * atan2 (Real.sqrt (havA lat1 lon1 lat2 lon2))
      (Real.sqrt (1 - havA lat1 lon1 lat2 lon2)))

lemma havA_symm (lat1 lon1 lat2 lon2 : ℝ) :
    havA lat1 lon1 lat2 lon2 = havA lat2 lon2 lat1 lon1 := by
  unfold havA
  have h1 : (lat1 - lat2) * Real.pi / 180 / 2 = -((lat2 - lat1) * Real.pi / 180 / 2) := by
    ring
  have h2 : (lon1 - lon2) * Real.pi / 180 / 2 = -((lon2 - lon1) * Real.pi / 180 / 2) := by
    ring
  rw [h1, h2, Real.sin_neg, Real.sin_neg]
  ring

lemma havA_self (lat lon : ℝ) : havA lat lon lat lon = 0 := by
  unfold havA
  simp

lemma arctan_nonneg {x : ℝ} (hx : 0 ≤ x) : 0 ≤ Real.arctan x := by
  have := Real.arctan_strictMono.monotone hx
  rwa [Real.arctan_zero] at this

lemma atan2_nonneg {y x : ℝ} (hy : 0 ≤ y) (hx : 0 ≤ x) : 0 ≤ atan2 y x := by
  unfold atan2
  rcases eq_or_lt_of_le hx with h | h
  · subst h
    rw [if_neg (lt_irrefl 0), if_neg (lt_irrefl 0)]
    rcases eq_or_lt_of_le hy with h2 | h2
    · subst h2
      rw [if_neg (lt_irrefl 0), if_neg (lt_irrefl 0)]
    · rw [if_pos h2]
      linarith [Real.pi_pos]
  · rw [if_pos h]
    exact arctan_nonneg (div_nonneg hy h.le)

lemma haversine_nonneg (lat1 lon1 lat2 lon2 : ℝ) :
    0 ≤ haversineDistance lat1 lon1 lat2 lon2 := by
  unfold haversineDistance
  have h := atan2_nonneg (Real.sqrt_nonneg (havA lat1 lon1 lat2 lon2))
    (Real.sqrt_nonneg (1 - havA lat1 lon1 lat2 lon2))
  positivity

lemma haversine_self (lat lon : ℝ) : haversineDistance lat lon lat lon = 0 := by
  unfold haversineDistance
  rw [havA_self]
  rw [Real.sqrt_zero, sub_zero, Real.sqrt_one]
  unfold atan2
  rw [if_pos one_pos]
  simp [Real.arctan_zero]

/-- C8: the haversine distance function is symmetric, returns 0 when the two
coordinate pairs coincide, and is never negative, for all real coordinates. -/
theorem haversine_props (lat1 lon1 lat2 lon2 : ℝ) :
    haversineDistance lat1 lon1 lat2 lon2 = haversineDistance lat2 lon2 lat1 lon1 ∧
    haversineDistance lat1 lon1 lat1 lon1 = 0 ∧
    0 ≤ haversineDistance lat1 lon1 lat2 lon2 := by
  refine ⟨?_, haversine_self lat1 lon1, haversine_nonneg lat1 lon1 lat2 lon2⟩
  unfold haversineDistance
  rw [havA_symm]

/-! ## Track parser (source lines 360-386)

The GPX document structure relevant to the parser loop is the list of
trkseg elements, each a list of trkpt elements; at this stage a trackpoint
carries its already-parsed numeric lat / lon / ele values. -/

/-- Numeric content of one trkpt element after attribute parsing. -/
structure RawPoint where
  lat : ℝ
  lon : ℝ
  ele : ℝ

/-- Translation of the ElevationPoint record pushed by the parser loop. -/
structure ElevationPoint where
  lon : ℝ
  lat : ℝ
  ele : ℝ
  distance : ℝ

/-- Update of cumulativeDistance for one trkpt, translated from the branch on
segIndex > 0 && ptIndex === 0 and on trackPoints.length > 0 (the previous
pushed point, when any, is passed as an option). -/
noncomputable def nextCum (segIndex ptIndex : ℕ) (prev : Option ElevationPoint)
    (cum : ℝ) (p : RawPoint) : ℝ :=
  if 0 < segIndex ∧ ptIndex = 0 then cum
  else
    match prev with
    | some pr => cum + haversineDistance pr.lat pr.lon p.lat p.lon
    | none => cum

/-- Translation of the body of the inner forEach over trkpt: append one point
to trackPoints, updating cumulativeDistance; the previous pushed point is the
last element of the accumulator. -/
noncomputable def stepPoint (segIndex ptIndex : ℕ) (acc : List ElevationPoint)
    (cum : ℝ) (p : RawPoint) : List ElevationPoint × ℝ :=
  let cum2 := nextCum segIndex ptIndex acc.getLast? cum p
  (acc ++ [{ lon := p.lon, lat := p.lat, ele := p.ele, distance := cum2 }], cum2)

/-- Translation of the inner forEach over the trkpt list of one segment,
threading the trackPoints array and cumulativeDistance. -/
noncomputable def stepSeg (segIndex : ℕ) (acc : List ElevationPoint) (cum : ℝ)
    (ptIndex : ℕ) : List RawPoint → List ElevationPoint × ℝ
  | [] => (acc, cum)
  | p :: ps =>
      let st := stepPoint segIndex ptIndex acc cum p
      stepSeg segIndex st.1 st.2 (ptIndex + 1) ps

/-- Translation of the outer forEach over the trkseg list. -/
noncomputable def stepSegs (segIndex : ℕ) (acc : List ElevationPoint) (cum : ℝ) :
    List (List RawPoint) → List ElevationPoint × ℝ
  | [] => (acc, cum)
  | s :: ss =>
      let st := stepSeg segIndex acc cum 0 s
      stepSegs (segIndex + 1) st.1 st.2 ss

/-- Translation of the whole parser loop: trackPoints starts empty,
cumulativeDistance starts at 0, segments are processed in document order. -/
noncomputable def parseTrackPoints (segs : List (List RawPoint)) : List ElevationPoint :=
  (stepSegs 0 [] 0 segs).1

/-! ### Recursive characterization of the parser loop

mkSeg / mkSegs rebuild the produced points segment by segment, threading the
previous produced point explicitly instead of reading the tail of the
accumulator; they are proved equal to the loop translation and support the
structural proofs. -/

/-- Last element of a produced block, falling back to the point that preceded
the block. -/
def lastOr (l : List ElevationPoint) (prev : Option ElevationPoint) :
    Option ElevationPoint :=
  match l.getLast? with
  | some x => some x
  | none => prev

/-- Points produced for one segment, with the preceding produced point (if
any) passed explicitly. -/
noncomputable def mkEp (prev : Option ElevationPoint) (cum : ℝ)
    (segIndex ptIndex : ℕ) (p : RawPoint) : ElevationPoint :=
  { lon := p.lon, lat := p.lat, ele := p.ele,
    distance := nextCum segIndex ptIndex prev cum p }

/-- Points produced for one segment together with the final cumulative
distance, with the preceding produced point passed explicitly. -/
noncomputable def mkSeg (segIndex : ℕ) (prev : Option ElevationPoint) (cum : ℝ)
    (ptIndex : ℕ) : List RawPoint → List ElevationPoint × ℝ
  | [] => ([], cum)
  | p :: ps =>
      let ep := mkEp prev cum segIndex ptIndex p
      let r := mkSeg segIndex (some ep) (nextCum segIndex ptIndex prev cum p) (ptIndex + 1) ps
      (ep :: r.1, r.2)

lemma mkSeg_cons (segIndex : ℕ) (prev : Option ElevationPoint) (cum : ℝ)
    (k : ℕ) (p : RawPoint) (ps : List RawPoint) :
    mkSeg segIndex prev cum k (p :: ps) =
      (mkEp prev cum segIndex k p ::
        (mkSeg segIndex (some (mkEp prev cum segIndex k p))
          (nextCum segIndex k prev cum p) (k + 1) ps).1,
       (mkSeg segIndex (some (mkEp prev cum segIndex k p))
          (nextCum segIndex k prev cum p) (k + 1) ps).2) := rfl

/-- Points produced for a list of segments, threading the previous point and
the cumulative distance across segment boundaries. -/
noncomputable def mkSegs (segIndex : ℕ) (prev : Option ElevationPoint) (cum : ℝ) :
    List (List RawPoint) → List ElevationPoint × ℝ
  | [] => ([], cum)
  | s :: ss =>
      let r := mkSeg segIndex prev cum 0 s
      let rs := mkSegs (segIndex + 1) (lastOr r.1 prev) r.2 ss
      (r.1 ++ rs.1, rs.2)

lemma lastOr_concat (l : List ElevationPoint) (a : ElevationPoint)
    (prev : Option ElevationPoint) : lastOr (l ++ [a]) prev = some a := by
  unfold lastOr
  rw [List.getLast?_concat]

lemma lastOr_cons (a : ElevationPoint) (l : List ElevationPoint)
    (prev : Option ElevationPoint) : lastOr (a :: l) prev = lastOr l (some a) := by
  rcases List.eq_nil_or_concat l with h | ⟨l2, b, h⟩
  · subst h
    unfold lastOr
    simp
  · subst h
    simp only [List.concat_eq_append]
    rw [lastOr_concat]
    have : a :: (l2 ++ [b]) = (a :: l2) ++ [b] := by simp
    rw [this, lastOr_concat]

lemma lastOr_append (l1 l2 : List ElevationPoint) (prev : Option ElevationPoint) :
    lastOr (l1 ++ l2) prev = lastOr l2 (lastOr l1 prev) := by
  rcases List.eq_nil_or_concat l2 with h | ⟨l3, b, h⟩
  · subst h
    simp [lastOr]
  · subst h
    simp only [List.concat_eq_append]
    rw [lastOr_concat, ← List.append_assoc, lastOr_concat]

lemma getLast?_eq_lastOr (acc l : List ElevationPoint) :
    (acc ++ l).getLast? = lastOr l acc.getLast? := by
  rcases List.eq_nil_or_concat l with h | ⟨l2, b, h⟩
  · subst h
    simp [lastOr]
  · subst h
    simp only [List.concat_eq_append]
    rw [lastOr_concat, ← List.append_assoc, List.getLast?_concat]

lemma stepSeg_eq_mkSeg (segIndex : ℕ) (pts : List RawPoint) :
    ∀ (acc : List ElevationPoint) (cum : ℝ) (ptIndex : ℕ),
    stepSeg segIndex acc cum ptIndex pts =
      (acc ++ (mkSeg segIndex acc.getLast? cum ptIndex pts).1,
       (mkSeg segIndex acc.getLast? cum ptIndex pts).2) := by
  induction pts with
  | nil =>
      intro acc cum ptIndex
      simp [stepSeg, mkSeg]
  | cons p ps ih =>
      intro acc cum ptIndex
      simp only [stepSeg, mkSeg, stepPoint]
      rw [ih]
      rw [List.getLast?_concat]
      simp [List.append_assoc, mkEp]

lemma stepSegs_eq_mkSegs (segs : List (List RawPoint)) :
    ∀ (segIndex : ℕ) (acc : List ElevationPoint) (cum : ℝ),
    stepSegs segIndex acc cum segs =
      (acc ++ (mkSegs segIndex acc.getLast? cum segs).1,
       (mkSegs segIndex acc.getLast? cum segs).2) := by
  induction segs with
  | nil =>
      intro segIndex acc cum
      simp [stepSegs, mkSegs]
  | cons s ss ih =>
      intro segIndex acc cum
      simp only [stepSegs, mkSegs]
      rw [stepSeg_eq_mkSeg]
      rw [ih]
      rw [getLast?_eq_lastOr]
      simp [List.append_assoc]

lemma parse_eq_mkSegs (segs : List (List RawPoint)) :
    parseTrackPoints segs = (mkSegs 0 none 0 segs).1 := by
  unfold parseTrackPoints
  rw [stepSegs_eq_mkSegs]
  simp

/-! ### Segment / point index tags

Every raw point is pushed exactly once, so the produced list pairs up with the
list of (segIndex, ptIndex) tags of the raw points in document order. -/

/-- Tags (segIndex, ptIndex) of the points of one segment, starting at a given
point index. -/
def tagsOfSeg (j k : ℕ) : List RawPoint → List (ℕ × ℕ)
  | [] => []
  | _ :: ps => (j, k) :: tagsOfSeg j (k + 1) ps

/-- Tags of all points of a segment list, starting at a given segment index. -/
def segTagsFrom (j : ℕ) : List (List RawPoint) → List (ℕ × ℕ)
  | [] => []
  | s :: ss => tagsOfSeg j 0 s ++ segTagsFrom (j + 1) ss

/-- Tags of all points of a document, in document order. -/
def segTags (segs : List (List RawPoint)) : List (ℕ × ℕ) := segTagsFrom 0 segs

/-- Relation between a produced point and the next produced point together
with the next point's (segIndex, ptIndex) tag: the cumulative distance grows
by 0 at a segment start (segIndex > 0, ptIndex = 0) and by the haversine
distance from the previous point otherwise. -/
def stepRel (a : ElevationPoint) (b : ElevationPoint × (ℕ × ℕ)) : Prop :=
  b.1.distance = a.distance +
    (if 0 < b.2.1 ∧ b.2.2 = 0 then 0
     else haversineDistance a.lat a.lon b.1.lat b.1.lon)

lemma tagsOfSeg_length (j : ℕ) (pts : List RawPoint) :
    ∀ k, (tagsOfSeg j k pts).length = pts.length := by
  induction pts with
  | nil => intro k; simp [tagsOfSeg]
  | cons p ps ih => intro k; simp [tagsOfSeg, ih]

lemma zip_append_of_length_eq {α β : Type} (l1 : List α) :
    ∀ (t1 : List β) (l2 : List α) (t2 : List β), l1.length = t1.length →
    (l1 ++ l2).zip (t1 ++ t2) = l1.zip t1 ++ l2.zip t2 := by
  induction l1 with
  | nil =>
      intro t1 l2 t2 h
      cases t1 with
      | nil => simp
      | cons a t => simp at h
  | cons a l ih =>
      intro t1 l2 t2 h
      cases t1 with
      | nil => simp at h
      | cons b t =>
          simp only [List.cons_append, List.zip_cons_cons]
          rw [ih t l2 t2 (by simpa using h)]

lemma mkSeg_spec (segIndex : ℕ) (pts : List RawPoint) :
    ∀ (ptIndex : ℕ) (prev : Option ElevationPoint) (cum : ℝ),
    (∀ pr, prev = some pr → pr.distance = cum) →
    (mkSeg segIndex prev cum ptIndex pts).1.length = pts.length ∧
    List.Chain' (fun x y => stepRel x.1 y)
      ((mkSeg segIndex prev cum ptIndex pts).1.zip (tagsOfSeg segIndex ptIndex pts)) ∧
    (∀ pr, prev = some pr → ∀ hd,
      ((mkSeg segIndex prev cum ptIndex pts).1.zip
        (tagsOfSeg segIndex ptIndex pts)).head? = some hd → stepRel pr hd) ∧
    (∀ pr, lastOr (mkSeg segIndex prev cum ptIndex pts).1 prev = some pr →
      pr.distance = (mkSeg segIndex prev cum ptIndex pts).2) ∧
    (∀ x, ((mkSeg segIndex prev cum ptIndex pts).1.zip
        (tagsOfSeg segIndex ptIndex pts)).getLast? = some x →
      lastOr (mkSeg segIndex prev cum ptIndex pts).1 prev = some x.1) := by
  induction pts with
  | nil =>
      intro k prev cum hInv
      refine ⟨by simp [mkSeg], by simp [mkSeg, tagsOfSeg], ?_, ?_, ?_⟩
      · intro pr hpr hd hhd
        simp [mkSeg, tagsOfSeg] at hhd
      · intro pr hpr
        simp only [mkSeg] at hpr ⊢
        unfold lastOr at hpr
        simp at hpr
        exact hInv pr hpr
      · intro x hx
        simp [mkSeg, tagsOfSeg] at hx
  | cons p ps ih =>
      intro k prev cum hInv
      rw [mkSeg_cons]
      set cum2 : ℝ := nextCum segIndex k prev cum p with hcum2
      set ep : ElevationPoint := mkEp prev cum segIndex k p with hepdef
      obtain ⟨ihLen, ihChain, ihHead, ihLast, ihZipLast⟩ :=
        ih (k + 1) (some ep) cum2 (by intro pr hpr; cases hpr; rfl)
      have hbound : ∀ pr, prev = some pr → stepRel pr (ep, (segIndex, k)) := by
        intro pr hpr
        have hd : pr.distance = cum := hInv pr hpr
        unfold stepRel
        show ep.distance = pr.distance + _
        rw [hepdef]
        unfold mkEp
        subst hpr
        unfold nextCum
        by_cases hseam : 0 < segIndex ∧ k = 0
        · rw [if_pos hseam, if_pos hseam, hd]
          simp
        · rw [if_neg hseam, if_neg hseam, hd]
      simp only [tagsOfSeg, List.zip_cons_cons]
      refine ⟨by simp [ihLen], ?_, ?_, ?_, ?_⟩
      · rw [List.chain'_cons']
        refine ⟨?_, ihChain⟩
        intro y hy
        exact ihHead ep rfl y (by simpa using hy)
      · intro pr hpr hd hhd
        simp only [List.head?_cons, Option.some_inj] at hhd
        rw [← hhd]
        exact hbound pr hpr
      · intro pr hpr
        rw [lastOr_cons] at hpr
        exact ihLast pr hpr
      · intro x hx
        rw [lastOr_cons]
        rcases List.eq_nil_or_concat
            ((mkSeg segIndex (some ep) cum2 (k + 1) ps).1.zip
              (tagsOfSeg segIndex (k + 1) ps)) with hz | ⟨z2, b, hz⟩
        · rw [hz] at hx
          simp only [List.getLast?_singleton, Option.some_inj] at hx
          have hnil : (mkSeg segIndex (some ep) cum2 (k + 1) ps).1 = [] := by
            rcases List.zip_eq_nil_iff.mp hz with h | h
            · exact h
            · have htl := tagsOfSeg_length segIndex ps (k + 1)
              rw [h] at htl
              simp at htl
              exact List.length_eq_zero.mp (by rw [ihLen, ← htl])
          rw [hnil]
          rw [← hx]
          simp [lastOr]
        · rw [hz] at hx
          rw [hz] at ihZipLast
          simp only [List.concat_eq_append] at hx ihZipLast
          rw [← List.cons_append, List.getLast?_concat] at hx
          have hlast := ihZipLast b (List.getLast?_concat z2)
          rw [Option.some_inj] at hx
          rw [← hx]
          exact hlast

lemma mkSegs_spec (segs : List (List RawPoint)) :
    ∀ (segIndex : ℕ) (prev : Option ElevationPoint) (cum : ℝ),
    (∀ pr, prev = some pr → pr.distance = cum) →
    (mkSegs segIndex prev cum segs).1.length = (segTagsFrom segIndex segs).length ∧
    List.Chain' (fun x y => stepRel x.1 y)
      ((mkSegs segIndex prev cum segs).1.zip (segTagsFrom segIndex segs)) ∧
    (∀ pr, prev = some pr → ∀ hd,
      ((mkSegs segIndex prev cum segs).1.zip (segTagsFrom segIndex segs)).head? =
        some hd → stepRel pr hd) ∧
    (∀ pr, lastOr (mkSegs segIndex prev cum segs).1 prev = some pr →
      pr.distance = (mkSegs segIndex prev cum segs).2) := by
  induction segs with
  | nil =>
      intro segIndex prev cum hInv
      refine ⟨by simp [mkSegs, segTagsFrom], by simp [mkSegs, segTagsFrom], ?_, ?_⟩
      · intro pr hpr hd hhd
        simp [mkSegs, segTagsFrom] at hhd
      · intro pr hpr
        simp only [mkSegs] at hpr ⊢
        unfold lastOr at hpr
        simp at hpr
        exact hInv pr hpr
  | cons s ss ih =>
      intro segIndex prev cum hInv
      obtain ⟨L1, C1, H1, Last1, ZL1⟩ := mkSeg_spec segIndex s 0 prev cum hInv
      obtain ⟨L2, C2, H2, Last2⟩ :=
        ih (segIndex + 1) (lastOr (mkSeg segIndex prev cum 0 s).1 prev)
          (mkSeg segIndex prev cum 0 s).2 Last1
      have hmks : mkSegs segIndex prev cum (s :: ss) =
          ((mkSeg segIndex prev cum 0 s).1 ++
            (mkSegs (segIndex + 1) (lastOr (mkSeg segIndex prev cum 0 s).1 prev)
              (mkSeg segIndex prev cum 0 s).2 ss).1,
           (mkSegs (segIndex + 1) (lastOr (mkSeg segIndex prev cum 0 s).1 prev)
              (mkSeg segIndex prev cum 0 s).2 ss).2) := rfl
      have hlen1 : (mkSeg segIndex prev cum 0 s).1.length =
          (tagsOfSeg segIndex 0 s).length := by
        rw [L1, tagsOfSeg_length]
      have hzipsplit :
          ((mkSeg segIndex prev cum 0 s).1 ++
            (mkSegs (segIndex + 1) (lastOr (mkSeg segIndex prev cum 0 s).1 prev)
              (mkSeg segIndex prev cum 0 s).2 ss).1).zip
            (tagsOfSeg segIndex 0 s ++ segTagsFrom (segIndex + 1) ss) =
          (mkSeg segIndex prev cum 0 s).1.zip (tagsOfSeg segIndex 0 s) ++
            (mkSegs (segIndex + 1) (lastOr (mkSeg segIndex prev cum 0 s).1 prev)
              (mkSeg segIndex prev cum 0 s).2 ss).1.zip (segTagsFrom (segIndex + 1) ss) :=
        zip_append_of_length_eq _ _ _ _ hlen1
      rw [hmks]
      simp only [segTagsFrom]
      rw [hzipsplit]
      refine ⟨by simp [L1, L2, tagsOfSeg_length], ?_, ?_, ?_⟩
      · refine List.Chain'.append C1 C2 ?_
        intro x hx y hy
        exact H2 x.1 (ZL1 x hx) y hy
      · intro pr hpr hd hhd
        rcases hzq : (mkSeg segIndex prev cum 0 s).1.zip (tagsOfSeg segIndex 0 s) with
          _ | ⟨z, zs⟩
        · rw [hzq] at hhd
          simp only [List.nil_append] at hhd
          have hnil : (mkSeg segIndex prev cum 0 s).1 = [] := by
            rcases List.zip_eq_nil_iff.mp hzq with h | h
            · exact h
            · have htl := tagsOfSeg_length segIndex s 0
              rw [h] at htl
              simp at htl
              exact List.length_eq_zero.mp (by rw [L1, ← htl])
          have hprev : lastOr (mkSeg segIndex prev cum 0 s).1 prev = some pr := by
            rw [hnil]
            simpa [lastOr] using hpr
          exact H2 pr hprev hd hhd
        · rw [hzq] at hhd
          simp only [List.cons_append, List.head?_cons, Option.some_inj] at hhd
          rw [← hhd]
          refine H1 pr hpr z ?_
          rw [hzq]
          rfl
      · intro pr hpr
        rw [lastOr_append] at hpr
        exact Last2 pr hpr

lemma parse_eq_mkSegs_fst (segs : List (List RawPoint)) :
    parseTrackPoints segs = (mkSegs 0 none 0 segs).1 := parse_eq_mkSegs segs

lemma none_inv (cum : ℝ) :
    ∀ pr : ElevationPoint, (none : Option ElevationPoint) = some pr →
      pr.distance = cum := by
  intro pr h
  cases h

lemma parse_tags_length (segs : List (List RawPoint)) :
    (parseTrackPoints segs).length = (segTags segs).length := by
  rw [parse_eq_mkSegs]
  exact (mkSegs_spec segs 0 none 0 (none_inv 0)).1

lemma parse_tags_chain (segs : List (List RawPoint)) :
    List.Chain' (fun x y => stepRel x.1 y)
      ((parseTrackPoints segs).zip (segTags segs)) := by
  rw [parse_eq_mkSegs]
  exact (mkSegs_spec segs 0 none 0 (none_inv 0)).2.1

lemma mkSegs_head_dist (segs : List (List RawPoint)) :
    ∀ (j : ℕ) (cum : ℝ) (p : ElevationPoint),
    ((mkSegs j none cum segs).1).head? = some p → p.distance = cum := by
  induction segs with
  | nil =>
      intro j cum p h
      simp [mkSegs] at h
  | cons s ss ih =>
      intro j cum p h
      cases s with
      | nil =>
          simp only [mkSegs, mkSeg, lastOr, List.getLast?_nil, List.nil_append] at h
          exact ih (j + 1) cum p h
      | cons q qs =>
          rw [show mkSegs j none cum ((q :: qs) :: ss) =
              ((mkSeg j none cum 0 (q :: qs)).1 ++
                (mkSegs (j + 1) (lastOr (mkSeg j none cum 0 (q :: qs)).1 none)
                  (mkSeg j none cum 0 (q :: qs)).2 ss).1,
               (mkSegs (j + 1) (lastOr (mkSeg j none cum 0 (q :: qs)).1 none)
                  (mkSeg j none cum 0 (q :: qs)).2 ss).2) from rfl] at h
          rw [mkSeg_cons] at h
          simp only [List.cons_append, List.head?_cons, Option.some_inj] at h
          rw [← h]
          show nextCum j 0 none cum q = cum
          unfold nextCum
          by_cases hseam : 0 < j ∧ (0 : ℕ) = 0
          · rw [if_pos hseam]
          · rw [if_neg hseam]

lemma parse_head_dist (segs : List (List RawPoint)) :
    ∀ p, (parseTrackPoints segs).head? = some p → p.distance = 0 := by
  rw [parse_eq_mkSegs]
  exact fun p h => mkSegs_head_dist segs 0 0 p h

/-- Parsing a document with a single segment holding a single point yields one
point at cumulative distance 0. -/
lemma parse_single (p : RawPoint) :
    parseTrackPoints [[p]] =
      [{ lon := p.lon, lat := p.lat, ele := p.ele, distance := 0 }] := rfl

/-- C4: in the parsed output, the first point of each segment after the first
adds a distance increment of exactly 0 (its cumulative distance equals the
previous produced point's cumulative distance), while every other point after
the track's first point adds the haversine distance from the previous point.
The tag list pairs every produced point with its (segIndex, ptIndex) position
in the document. -/
theorem parse_seam_stitch (segs : List (List RawPoint)) :
    (parseTrackPoints segs).length = (segTags segs).length ∧
    List.Chain'
      (fun a b => b.1.distance = a.1.distance +
        (if 0 < b.2.1 ∧ b.2.2 = 0 then 0
         else haversineDistance a.1.lat a.1.lon b.1.lat b.1.lon))
      ((parseTrackPoints segs).zip (segTags segs)) :=
  ⟨parse_tags_length segs, parse_tags_chain segs⟩

/-- C5: the first parsed point has cumulative distance 0, and cumulative
distance is monotonically non-decreasing along the parsed point sequence. -/
theorem parse_first_zero_and_monotone (segs : List (List RawPoint)) :
    (∀ p, (parseTrackPoints segs).head? = some p → p.distance = 0) ∧
    List.Chain' (fun a b => a.distance ≤ b.distance) (parseTrackPoints segs) := by
  refine ⟨parse_head_dist segs, ?_⟩
  have hlen := parse_tags_length segs
  have hchain := parse_tags_chain segs
  have hmap : ((parseTrackPoints segs).zip (segTags segs)).map Prod.fst =
      parseTrackPoints segs := List.map_fst_zip _ _ (le_of_eq hlen)
  have hzip : List.Chain' (fun a b => a.distance ≤ b.distance)
      (((parseTrackPoints segs).zip (segTags segs)).map Prod.fst) := by
    rw [List.chain'_map]
    refine hchain.imp ?_
    intro x y hxy
    unfold stepRel at hxy
    rw [hxy]
    by_cases hseam : 0 < y.2.1 ∧ y.2.2 = 0
    · rw [if_pos hseam]
      simp
    · rw [if_neg hseam]
      have := haversine_nonneg x.1.lat x.1.lon y.1.lat y.1.lon
      linarith
  rwa [hmap] at hzip

/-- Witness for C5 at a concrete single-point document: the parsed head point
exists and its distance is 0. -/
theorem parse_first_zero_and_monotone_witness :
    ({ lon := 0, lat := 0, ele := 0, distance := 0 } : ElevationPoint).distance = 0 :=
  (parse_first_zero_and_monotone [[{ lat := 0, lon := 0, ele := 0 }]]).1
    { lon := 0, lat := 0, ele := 0, distance := 0 } rfl

/-! ## Track aggregator (source lines 388-407) -/

/-- Minimum of a list of reals, as Math.min over a nonempty spread; the value
for the empty list is arbitrary (the loader only aggregates nonempty parses). -/
noncomputable def minOfList : List ℝ → ℝ
  | [] => 0
  | x :: xs => xs.foldl min x

/-- Maximum of a list of reals, as Math.max over a nonempty spread. -/
noncomputable def maxOfList : List ℝ → ℝ
  | [] => 0
  | x :: xs => xs.foldl max x

/-- Accumulator loop of the elevation gain computation: sum of positive
consecutive elevation differences. -/
noncomputable def elevationGainAux (g : ℝ) (prev : ElevationPoint) :
    List ElevationPoint → ℝ
  | [] => g
  | p :: ps =>
      elevationGainAux (if 0 < p.ele - prev.ele then g + (p.ele - prev.ele) else g) p ps

/-- Translation of the elevationGain loop (for j = 1; j < length; j++). -/
noncomputable def elevationGain : List ElevationPoint → ℝ
  | [] => 0
  | p :: ps => elevationGainAux 0 p ps

/-- Translation of the TrackData record produced by the loader. -/
structure TrackData where
  name : String
  points : List ElevationPoint
  totalDistance : ℝ
  elevationGain : ℝ
  minEle : ℝ
  maxEle : ℝ

/-- Aggregation of a parsed point list into a TrackData record, translated
from the body of the if (trackPoints.length > 0) block: minEle / maxEle over
the elevations, totalDistance from the last point, elevationGain as the summed
positive differences. -/
noncomputable def aggregate (name : String) (pts : List ElevationPoint) : TrackData :=
  { name := name
    points := pts
    totalDistance := ((pts.getLast?).map (fun p => p.distance)).getD 0
    elevationGain := elevationGain pts
    minEle := minOfList (pts.map (fun p => p.ele))
    maxEle := maxOfList (pts.map (fun p => p.ele)) }

/-- Translation of eleRange = maxEle - minEle || 1 (source line 435): the
JavaScript or-default collapses a zero difference to 1. -/
noncomputable def eleRange (t : TrackData) : ℝ :=
  if t.maxEle - t.minEle = 0 then 1 else t.maxEle - t.minEle

/-- C9: a track parsed from a single point aggregates to elevationGain 0 and
totalDistance 0, and its eleRange falls back to 1 (no zero denominator) since
maxEle equals minEle. -/
theorem single_point_track (p : RawPoint) (name : String) :
    (aggregate name (parseTrackPoints [[p]])).elevationGain = 0 ∧
    (aggregate name (parseTrackPoints [[p]])).totalDistance = 0 ∧
    eleRange (aggregate name (parseTrackPoints [[p]])) = 1 := by
  rw [parse_single]
  refine ⟨rfl, rfl, ?_⟩
  simp [eleRange, aggregate, maxOfList, minOfList]

/-! ## Multi-track loader (source lines 345-418) -/

/-- Relevant content of a fetched and DOM-parsed GPX document: the optional
trk > name or metadata > name text, and the trkseg element list. -/
structure GpxDoc where
  name : Option String
  segs : List (List RawPoint)

/-- Outcome of fetch + text + DOMParser for one source: failure models a
thrown error (network or parse throw), success carries the document. -/
inductive FetchOutcome where
  | failure
  | success (doc : GpxDoc)

/-- Translation of trackName = nameNode?.textContent || (Track (i+1)): a
missing name node or empty text falls back to the 1-based source index
label. -/
def trackName (n : Option String) (i : ℕ) : String :=
  match n with
  | some s => if s = "" then "Track " ++ toString (i + 1) else s
  | none => "Track " ++ toString (i + 1)

/-- Translation of the for loop of loadAllGpx: on failure the catch block
skips the source; on success the document is parsed and, when it yields at
least one point, the aggregated track is appended. -/
noncomputable def loadLoop (i : ℕ) (acc : List TrackData) :
    List FetchOutcome → List TrackData
  | [] => acc
  | src :: rest =>
      match src with
      | .failure => loadLoop (i + 1) acc rest
      | .success doc =>
          if 0 < (parseTrackPoints doc.segs).length then
            loadLoop (i + 1)
              (acc ++ [aggregate (trackName doc.name i) (parseTrackPoints doc.segs)]) rest
          else loadLoop (i + 1) acc rest

/-- Translation of loadAllGpx: process the sources in order starting from
index 0 with an empty loadedTracks accumulator. -/
noncomputable def loadAllGpx (sources : List FetchOutcome) : List TrackData :=
  loadLoop 0 [] sources

/-- Per-source outcome of the loader, phrased from the spec: a failed source
or a source with zero parsed points contributes nothing; a successful source
contributes its aggregated track. -/
noncomputable def processSource (i : ℕ) (src : FetchOutcome) : Option TrackData :=
  match src with
  | .failure => none
  | .success doc =>
      if 0 < (parseTrackPoints doc.segs).length then
        some (aggregate (trackName doc.name i) (parseTrackPoints doc.segs))
      else none

lemma loadLoop_eq (sources : List FetchOutcome) :
    ∀ (i : ℕ) (acc : List TrackData),
    loadLoop i acc sources =
      acc ++ (List.enumFrom i sources).filterMap (fun pr => processSource pr.1 pr.2) := by
  induction sources with
  | nil =>
      intro i acc
      simp [loadLoop, List.enumFrom]
  | cons s rest ih =>
      intro i acc
      cases s with
      | failure =>
          rw [show loadLoop i acc (FetchOutcome.failure :: rest) =
              loadLoop (i + 1) acc rest from rfl]
          rw [ih]
          simp [List.enumFrom, List.filterMap_cons, processSource]
      | success doc =>
          by_cases hp : 0 < (parseTrackPoints doc.segs).length
          · rw [show loadLoop i acc (FetchOutcome.success doc :: rest) =
                if 0 < (parseTrackPoints doc.segs).length then
                  loadLoop (i + 1)
                    (acc ++ [aggregate (trackName doc.name i) (parseTrackPoints doc.segs)])
                    rest
                else loadLoop (i + 1) acc rest from rfl]
            rw [if_pos hp, ih]
            simp only [List.enumFrom, List.filterMap_cons, processSource]
            rw [if_pos hp]
            simp [List.append_assoc]
          · rw [show loadLoop i acc (FetchOutcome.success doc :: rest) =
                if 0 < (parseTrackPoints doc.segs).length then
                  loadLoop (i + 1)
                    (acc ++ [aggregate (trackName doc.name i) (parseTrackPoints doc.segs)])
                    rest
                else loadLoop (i + 1) acc rest from rfl]
            rw [if_neg hp, ih]
            simp only [List.enumFrom, List.filterMap_cons, processSource]
            rw [if_neg hp]

lemma loadAllGpx_eq (sources : List FetchOutcome) :
    loadAllGpx sources =
      (List.enumFrom 0 sources).filterMap (fun pr => processSource pr.1 pr.2) := by
  unfold loadAllGpx
  rw [loadLoop_eq]
  simp

/-- C7: the loader output is exactly the per-source successful results in
source order (failed sources and zero-point sources are skipped, the rest are
processed), and its length never exceeds the number of sources. -/
theorem loader_skip_and_order (sources : List FetchOutcome) :
    loadAllGpx sources =
      (List.enumFrom 0 sources).filterMap (fun pr => processSource pr.1 pr.2) ∧
    (loadAllGpx sources).length ≤ sources.length := by
  refine ⟨loadAllGpx_eq sources, ?_⟩
  rw [loadAllGpx_eq sources]
  calc ((List.enumFrom 0 sources).filterMap
        (fun pr => processSource pr.1 pr.2)).length
      ≤ (List.enumFrom 0 sources).length := List.length_filterMap_le _ _
    _ = sources.length := by simp

lemma filterMap_get_of_get {α β : Type} (f : α → Option β) :
    ∀ (l : List α) (i : ℕ) (a : α) (b : β),
    l.get? i = some a → f a = some b →
    ∃ k, k ≤ i ∧ (l.filterMap f).get? k = some b := by
  intro l
  induction l with
  | nil =>
      intro i a b h
      simp at h
  | cons x rest ih =>
      intro i a b hget hf
      cases i with
      | zero =>
          simp only [List.get?_cons_zero, Option.some_inj] at hget
          subst hget
          refine ⟨0, le_refl 0, ?_⟩
          rw [List.filterMap_cons, hf]
          rfl
      | succ n =>
          simp only [List.get?_cons_succ] at hget
          obtain ⟨k, hk, hkget⟩ := ih n a b hget hf
          rw [List.filterMap_cons]
          cases hfx : f x with
          | none =>
              exact ⟨k, le_trans hk (Nat.le_succ n), by simpa using hkget⟩
          | some c =>
              exact ⟨k + 1, Nat.succ_le_succ hk, by simpa using hkget⟩

/-- C10: a successful source at input index i whose document has no name (or
an empty name) yields a track labeled Track (i+1) - numbered by its position
in the source list - placed in the output at some position k at most i (k is
smaller whenever an earlier source was dropped). -/
theorem default_label_source_indexed (sources : List FetchOutcome) (i : ℕ)
    (doc : GpxDoc) (hsrc : sources.get? i = some (FetchOutcome.success doc))
    (hname : doc.name = none ∨ doc.name = some "")
    (hpts : 0 < (parseTrackPoints doc.segs).length) :
    ∃ k, k ≤ i ∧ (loadAllGpx sources).get? k =
      some (aggregate ("Track " ++ toString (i + 1)) (parseTrackPoints doc.segs)) := by
  rw [loadAllGpx_eq]
  have henum : (List.enumFrom 0 sources).get? i =
      some (i, FetchOutcome.success doc) := by
    rw [List.get?_enumFrom]
    rw [hsrc]
    simp
  have hps : processSource i (FetchOutcome.success doc) =
      some (aggregate ("Track " ++ toString (i + 1)) (parseTrackPoints doc.segs)) := by
    show (if 0 < (parseTrackPoints doc.segs).length then
        some (aggregate (trackName doc.name i) (parseTrackPoints doc.segs))
      else none) = _
    rw [if_pos hpts]
    have hn : trackName doc.name i = "Track " ++ toString (i + 1) := by
      rcases hname with h | h
      · rw [h]
        rfl
      · rw [h]
        rfl
    rw [hn]
  exact filterMap_get_of_get _ (List.enumFrom 0 sources) i
    (i, FetchOutcome.success doc)
    (aggregate ("Track " ++ toString (i + 1)) (parseTrackPoints doc.segs)) henum hps

/-- Witness for C10: with three sources where the second fails and the third
has no document name, the third source's track keeps the source-indexed label
Track 3 even though earlier drops shift its collection position. -/
theorem default_label_source_indexed_witness :
    ∃ k, k ≤ 2 ∧
      (loadAllGpx
        [FetchOutcome.success { name := some "A", segs := [[{ lat := 0, lon := 0, ele := 0 }]] },
         FetchOutcome.failure,
         FetchOutcome.success { name := none, segs := [[{ lat := 0, lon := 0, ele := 7 }]] }]).get? k =
      some (aggregate ("Track " ++ toString (2 + 1))
        (parseTrackPoints [[{ lat := 0, lon := 0, ele := 7 }]])) :=
  default_label_source_indexed
    [FetchOutcome.success { name := some "A", segs := [[{ lat := 0, lon := 0, ele := 0 }]] },
     FetchOutcome.failure,
     FetchOutcome.success { name := none, segs := [[{ lat := 0, lon := 0, ele := 7 }]] }]
    2 { name := none, segs := [[{ lat := 0, lon := 0, ele := 7 }]] } rfl (Or.inl rfl)
    (by rw [parse_single]; simp)

/-! ## Nearest-point resolution (source lines 449-471) -/

/-- Distance field of the point at a given index, with an all-zero default
point out of range (the scan only reads indices in range). -/
noncomputable def distAt (points : List ElevationPoint) (i : ℕ) : ℝ :=
  (points.getD i { lon := 0, lat := 0, ele := 0, distance := 0 }).distance

/-- Translation of the linear scan of updateHoverFromClientX: closest starts
at 0, minDiff starts at Infinity (modelled as the none case, which every
finite difference beats), and only strict improvements replace the best. -/
noncomputable def findClosest (t : ℝ) : List ElevationPoint → ℕ → ℕ → Option ℝ → ℕ
  | [], _, closest, _ => closest
  | p :: ps, i, closest, minDiff =>
      match minDiff with
      | none => findClosest t ps (i + 1) i (some |p.distance - t|)
      | some m =>
          if |p.distance - t| < m then findClosest t ps (i + 1) i (some |p.distance - t|)
          else findClosest t ps (i + 1) closest (some m)

/-- Translation of updateHoverFromClientX from the normalized horizontal
position on: outside [0, 1] the hover index is cleared, otherwise the scan
selects the point nearest to relX * totalDistance. -/
noncomputable def updateHoverFromRelX (points : List ElevationPoint)
    (totalDistance relX : ℝ) : Option ℕ :=
  if relX < 0 ∨ 1 < relX then none
  else some (findClosest (relX * totalDistance) points 0 0 none)

lemma findClosest_invariant (t : ℝ) :
    ∀ (rest : List ElevationPoint) (full : List ElevationPoint) (i closest : ℕ) (m : ℝ),
    (∀ k, rest.get? k = full.get? (i + k)) →
    full.length = i + rest.length →
    closest < full.length →
    m = |distAt full closest - t| →
    (∀ j, j < i → m ≤ |distAt full j - t|) →
    (∀ j, j < closest → m < |distAt full j - t|) →
    findClosest t rest i closest (some m) < full.length ∧
    (∀ j, j < full.length →
      |distAt full (findClosest t rest i closest (some m)) - t| ≤ |distAt full j - t|) ∧
    (∀ j, j < findClosest t rest i closest (some m) →
      |distAt full (findClosest t rest i closest (some m)) - t| < |distAt full j - t|) := by
  intro rest
  induction rest with
  | nil =>
      intro full i closest m hagree hlen hc hm hmin htie
      simp only [List.length_nil, Nat.add_zero] at hlen
      refine ⟨hc, ?_, ?_⟩
      · intro j hj
        rw [show findClosest t [] i closest (some m) = closest from rfl]
        rw [← hm]
        exact hmin j (by omega)
      · intro j hj
        rw [show findClosest t [] i closest (some m) = closest from rfl] at hj ⊢
        rw [← hm]
        exact htie j hj
  | cons p ps ih =>
      intro full i closest m hagree hlen hc hm hmin htie
      have hp : full.get? i = some p := by
        have h0 := hagree 0
        simpa using h0.symm
      have hi : i < full.length := by
        rcases List.get?_eq_some.mp hp with ⟨h, _⟩
        exact h
      have hdp : distAt full i = p.distance := by
        unfold distAt
        rw [List.getD_eq_getD_get?, hp]
        rfl
      have hagree2 : ∀ k, ps.get? k = full.get? (i + 1 + k) := by
        intro k
        have := hagree (k + 1)
        simpa [Nat.add_comm, Nat.add_assoc, Nat.add_left_comm] using this
      have hlen2 : full.length = i + 1 + ps.length := by
        simp only [List.length_cons] at hlen
        omega
      by_cases hlt : |p.distance - t| < m
      · rw [show findClosest t (p :: ps) i closest (some m) =
            findClosest t ps (i + 1) i (some |p.distance - t|) from by
          simp only [findClosest]
          rw [if_pos hlt]]
        refine ih full (i + 1) i (|p.distance - t|) hagree2 hlen2 hi (by rw [hdp]) ?_ ?_
        · intro j hj
          rcases Nat.lt_succ_iff_lt_or_eq.mp hj with h | h
          · exact le_trans (le_of_lt hlt) (hmin j h)
          · subst h
            rw [hdp]
        · intro j hj
          exact lt_of_lt_of_le hlt (hmin j hj)
      · rw [show findClosest t (p :: ps) i closest (some m) =
            findClosest t ps (i + 1) closest (some m) from by
          simp only [findClosest]
          rw [if_neg hlt]]
        refine ih full (i + 1) closest m hagree2 hlen2 hc hm ?_ htie
        intro j hj
        rcases Nat.lt_succ_iff_lt_or_eq.mp hj with h | h
        · exact hmin j h
        · subst h
          rw [hdp]
          exact not_lt.mp hlt

/-- C6: for a pointer position normalized to relX: outside [0, 1] the hover
index becomes none; otherwise it becomes the index of the point minimizing
the absolute difference between its cumulative distance and
relX * totalDistance, ties broken by the earliest index (earlier indices are
strictly worse). -/
theorem nearest_point_resolution (points : List ElevationPoint)
    (totalDistance relX : ℝ) :
    (relX < 0 ∨ 1 < relX → updateHoverFromRelX points totalDistance relX = none) ∧
    (0 ≤ relX → relX ≤ 1 → points ≠ [] →
      ∃ r, updateHoverFromRelX points totalDistance relX = some r ∧
        r < points.length ∧
        (∀ j, j < points.length →
          |distAt points r - relX * totalDistance| ≤
            |distAt points j - relX * totalDistance|) ∧
        (∀ j, j < r →
          |distAt points r - relX * totalDistance| <
            |distAt points j - relX * totalDistance|)) := by
  constructor
  · intro h
    unfold updateHoverFromRelX
    rw [if_pos h]
  · intro h0 h1 hne
    have hcond : ¬ (relX < 0 ∨ 1 < relX) :=
      not_or.mpr ⟨not_lt.mpr h0, not_lt.mpr h1⟩
    unfold updateHoverFromRelX
    rw [if_neg hcond]
    cases points with
    | nil => exact absurd rfl hne
    | cons p ps =>
        rw [show findClosest (relX * totalDistance) (p :: ps) 0 0 none =
            findClosest (relX * totalDistance) ps 1 0
              (some |p.distance - relX * totalDistance|) from rfl]
        have hd0 : distAt (p :: ps) 0 = p.distance := rfl
        obtain ⟨hr, hle, hstrict⟩ := findClosest_invariant (relX * totalDistance) ps
          (p :: ps) 1 0 (|p.distance - relX * totalDistance|)
          (by intro k; simp [Nat.add_comm])
          (by simp [Nat.add_comm])
          (by simp)
          (by rw [hd0])
          (by intro j hj
              have hj0 : j = 0 := by omega
              subst hj0
              rw [hd0])
          (by intro j hj; omega)
        exact ⟨_, rfl, hr, hle, hstrict⟩

/-- Witness for C6 on a one-point track with relX = 1/2: the scan returns an
in-range index minimizing the distance difference. -/
theorem nearest_point_resolution_witness :
    ∃ r, updateHoverFromRelX [{ lon := 0, lat := 0, ele := 0, distance := 0 }]
        0 (1 / 2) = some r ∧
      r < ([{ lon := 0, lat := 0, ele := 0, distance := 0 }] : List ElevationPoint).length ∧
      (∀ j, j < ([{ lon := 0, lat := 0, ele := 0, distance := 0 }] : List ElevationPoint).length →
        |distAt [{ lon := 0, lat := 0, ele := 0, distance := 0 }] r - (1 / 2) * 0| ≤
          |distAt [{ lon := 0, lat := 0, ele := 0, distance := 0 }] j - (1 / 2) * 0|) ∧
      (∀ j, j < r →
        |distAt [{ lon := 0, lat := 0, ele := 0, distance := 0 }] r - (1 / 2) * 0| <
          |distAt [{ lon := 0, lat := 0, ele := 0, distance := 0 }] j - (1 / 2) * 0|) :=
  (nearest_point_resolution [{ lon := 0, lat := 0, ele := 0, distance := 0 }]
      0 (1 / 2)).2 (by norm_num) (by norm_num) (by simp)

/-! ## Interaction state machine (source lines 339-588)

The component state relevant to interaction is the loaded track collection
(setTracks), the selected track index (setSelectedIndex) and the hover index
(setHoverIndex). Events are the track-selector onChange, the pointer or touch
move resolved to a normalized horizontal position, and pointer leave or touch
end. -/

/-- Events handled by the interaction controller. -/
inductive UIEvent where
  | selectTrack (v : ℕ)
  | pointerMove (relX : ℝ)
  | pointerLeave

/-- Component state: tracks, selectedIndex, hoverIndex. -/
structure UIState where
  tracks : List TrackData
  selectedIndex : ℕ
  hoverIndex : Option ℕ

/-- Translation of the event handlers: the selector onChange (source line 578)
only calls setSelectedIndex; mouse leave and touch end clear the hover index;
pointer and touch moves run updateHoverFromClientX against the currently
selected track. -/
noncomputable def stepUI (s : UIState) : UIEvent → UIState
  | UIEvent.selectTrack v => { s with selectedIndex := v }
  | UIEvent.pointerLeave => { s with hoverIndex := none }
  | UIEvent.pointerMove relX =>
      match s.tracks.get? s.selectedIndex with
      | some track =>
          { s with hoverIndex :=
              updateHoverFromRelX track.points track.totalDistance relX }
      | none => s

/-- State reached from an initial state by a list of events. -/
noncomputable def runUI (init : UIState) (events : List UIEvent) : UIState :=
  events.foldl stepUI init

/-- Hover index validity: whenever a hover index is present it is a valid
index into the selected track's point list. -/
def hoverInBounds (s : UIState) : Prop :=
  ∀ h, s.hoverIndex = some h →
    ∀ track, s.tracks.get? s.selectedIndex = some track → h < track.points.length

/-- Translation of the detail computed by the hover broadcast effect (source
lines 420-428): hoverIndex !== null && track selects the payload branch, which
reads track.points[hoverIndex].lon / .lat without a bounds check. The outer
none models the TypeError thrown when track.points[hoverIndex] is undefined;
some none models the null detail; some (some (lon, lat)) models the payload. -/
noncomputable def broadcastDetail (s : UIState) : Option (Option (ℝ × ℝ)) :=
  match s.hoverIndex, s.tracks.get? s.selectedIndex with
  | some h, some track =>
      (match track.points.get? h with
       | some pt => some (some (pt.lon, pt.lat))
       | none => none)
  | some _, none => some none
  | none, _ => some none

/-- Two-track collection exhibiting the stale-hover defect: the first track
has two points, the second only one. -/
noncomputable def demoTrackA : TrackData :=
  { name := "Track 1"
    points := [{ lon := 0, lat := 0, ele := 0, distance := 0 },
               { lon := 0, lat := 0, ele := 0, distance := 1 }]
    totalDistance := 1
    elevationGain := 0
    minEle := 0
    maxEle := 0 }

noncomputable def demoTrackB : TrackData :=
  { name := "Track 2"
    points := [{ lon := 5, lat := 5, ele := 0, distance := 0 }]
    totalDistance := 0
    elevationGain := 0
    minEle := 0
    maxEle := 0 }

noncomputable def demoInit : UIState :=
  { tracks := [demoTrackA, demoTrackB], selectedIndex := 0, hoverIndex := none }

/-- C1 (refutation): hovering the last point of the first track and then
selecting the second track leaves the stale hover index 2 - 1 = 1 in place:
the reached state has hoverIndex some 1 while the selected track has a single
point, so the hover-broadcast effect dereferences an out-of-range index (the
modelled TypeError, broadcastDetail = none). The selector onChange performs no
hover reset. -/
theorem track_switch_out_of_bounds :
    (runUI demoInit [UIEvent.pointerMove 1, UIEvent.selectTrack 1]).hoverIndex = some 1 ∧
    (runUI demoInit [UIEvent.pointerMove 1, UIEvent.selectTrack 1]).selectedIndex = 1 ∧
    ¬ hoverInBounds (runUI demoInit [UIEvent.pointerMove 1, UIEvent.selectTrack 1]) ∧
    broadcastDetail (runUI demoInit [UIEvent.pointerMove 1, UIEvent.selectTrack 1]) = none := by
  have habs : |(1 : ℝ) - 1 * 1| < |(0 : ℝ) - 1 * 1| := by
    rw [one_mul, sub_self, abs_zero, zero_sub, abs_neg, abs_one]
    exact zero_lt_one
  have hhover : updateHoverFromRelX demoTrackA.points demoTrackA.totalDistance 1 =
      some 1 := by
    unfold updateHoverFromRelX demoTrackA
    rw [if_neg (by norm_num)]
    rw [show findClosest ((1 : ℝ) * 1)
        [{ lon := 0, lat := 0, ele := 0, distance := 0 },
         { lon := 0, lat := 0, ele := 0, distance := 1 }] 0 0 none =
      findClosest ((1 : ℝ) * 1)
        [{ lon := 0, lat := 0, ele := 0, distance := 1 }] 1 0
        (some |(0 : ℝ) - 1 * 1|) from rfl]
    rw [show findClosest ((1 : ℝ) * 1)
        [{ lon := 0, lat := 0, ele := 0, distance := 1 }] 1 0
        (some |(0 : ℝ) - 1 * 1|) =
      if |(1 : ℝ) - 1 * 1| < |(0 : ℝ) - 1 * 1| then
        findClosest ((1 : ℝ) * 1) [] 2 1 (some |(1 : ℝ) - 1 * 1|)
      else findClosest ((1 : ℝ) * 1) [] 2 0 (some |(0 : ℝ) - 1 * 1|) from rfl]
    rw [if_pos habs]
    rfl
  have hrun : runUI demoInit [UIEvent.pointerMove 1, UIEvent.selectTrack 1] =
      { tracks := [demoTrackA, demoTrackB], selectedIndex := 1, hoverIndex := some 1 } := by
    unfold runUI
    simp only [List.foldl]
    rw [show stepUI demoInit (UIEvent.pointerMove 1) =
        { tracks := [demoTrackA, demoTrackB], selectedIndex := 0,
          hoverIndex := updateHoverFromRelX demoTrackA.points demoTrackA.totalDistance 1 }
      from rfl]
    rw [hhover]
    rfl
  rw [hrun]
  refine ⟨rfl, rfl, ?_, rfl⟩
  intro hbound
  have hb := hbound 1 rfl demoTrackB rfl
  simp [demoTrackB] at hb

/-! ## Stale-load application (source lines 345-418)

The loading effect starts an asynchronous run over the current gpxUrls list
and unconditionally calls setTracks when that run finishes; there is no
cleanup, cancellation token or staleness check keying a run to the latest
source list. The trace model records each triggered load with a fresh id and
its source list; completing a pending load always applies its results. -/

/-- Events of the loader trace: an effect run triggered by a gpxUrls change,
or the completion of a pending asynchronous load. -/
inductive LoadEvent where
  | trigger (srcs : List String)
  | complete (id : ℕ)

/-- Loader state: fresh-id counter, pending in-flight loads with their source
lists, the most recently triggered load, and the load whose results were last
applied by setTracks. -/
structure LoaderState where
  nextId : ℕ
  pending : List (ℕ × List String)
  latest : Option (ℕ × List String)
  applied : Option (ℕ × List String)

/-- Translation of the effect behavior: a trigger starts a new in-flight run
for the current source list; a completion of a pending run applies its results
unconditionally (setTracks has no staleness guard). -/
def stepLoader (s : LoaderState) : LoadEvent → LoaderState
  | LoadEvent.trigger srcs =>
      { nextId := s.nextId + 1
        pending := s.pending ++ [(s.nextId, srcs)]
        latest := some (s.nextId, srcs)
        applied := s.applied }
  | LoadEvent.complete i =>
      match s.pending.find? (fun pr => pr.1 == i) with
      | some entry =>
          { s with
            pending := s.pending.filter (fun pr => pr.1 != i)
            applied := some entry }
      | none => s

/-- Loader state reached from the mount state by a trace of events. -/
def runLoader (events : List LoadEvent) : LoaderState :=
  events.foldl stepLoader { nextId := 0, pending := [], latest := none, applied := none }

/-- Stale-result discard as the claim states it: after the trace, the applied
result set corresponds to the most recently triggered source list. -/
def staleDiscard (events : List LoadEvent) : Prop :=
  ∀ e, (runLoader events).applied = some e → (runLoader events).latest = some e

/-- C2 (refutation): sources change from [a] to [b] before the first load
completes; the [b] load finishes first, then the superseded [a] load finishes
and its results are applied over the newer ones, so the exposed collection
corresponds to the stale source list. -/
theorem stale_results_applied :
    (runLoader [LoadEvent.trigger ["a"], LoadEvent.trigger ["b"],
      LoadEvent.complete 1, LoadEvent.complete 0]).applied = some (0, ["a"]) ∧
    (runLoader [LoadEvent.trigger ["a"], LoadEvent.trigger ["b"],
      LoadEvent.complete 1, LoadEvent.complete 0]).latest = some (1, ["b"]) ∧
    ¬ staleDiscard [LoadEvent.trigger ["a"], LoadEvent.trigger ["b"],
      LoadEvent.complete 1, LoadEvent.complete 0] := by
  refine ⟨rfl, rfl, ?_⟩
  intro h
  have h2 := h (0, ["a"]) rfl
  rw [show (runLoader [LoadEvent.trigger ["a"], LoadEvent.trigger ["b"],
      LoadEvent.complete 1, LoadEvent.complete 0]).latest = some (1, ["b"]) from rfl] at h2
  simp at h2

/-! ## Point attribute parsing (source lines 367-370)

The numeric coercion pipeline is parseFloat(pt.getAttribute("lat") || "0") for
the lat and lon attributes and eleNode ? parseFloat(eleNode.textContent || "0")
: 0 for the elevation. parseFloat is a JavaScript builtin external to the
repository; it is modelled over rationals with none standing for NaN. -/

/-- Natural number denoted by a digit list. -/
def digitsToNat : List Char → ℕ :=
  List.foldl (fun n c => 10 * n + (c.toNat - 48)) 0

/-- Value of a fractional digit list. -/
def fracVal (ds : List Char) : ℚ :=
  (digitsToNat ds : ℚ) / (10 ^ ds.length)

/-- Unsigned numeric prefix: integer digits with an optional fraction, or a
bare fraction led by a decimal point; none when no digits lead the string. -/
def parseUnsigned (cs : List Char) : Option ℚ :=
  match cs.takeWhile Char.isDigit, cs.drop (cs.takeWhile Char.isDigit).length with
  | [], '.' :: r2 =>
      (if (r2.takeWhile Char.isDigit).isEmpty then none
       else some (fracVal (r2.takeWhile Char.isDigit)))
  | [], _ => none
  | ip, '.' :: r2 => some ((digitsToNat ip : ℚ) + fracVal (r2.takeWhile Char.isDigit))
  | ip, _ => some ((digitsToNat ip : ℚ))

/-- Model of the JavaScript builtin parseFloat (external to the repository):
longest numeric prefix with optional sign, integer digits and fraction; none
models NaN (no parseable prefix). Leading whitespace and exponent forms are
omitted; they do not affect the claims. -/
def parseFloatJs (s : String) : Option ℚ :=
  match s.toList with
  | '-' :: cs => (parseUnsigned cs).map (fun q => -q)
  | '+' :: cs => parseUnsigned cs
  | cs => parseUnsigned cs

/-- Translation of the JavaScript or-default v || dflt on strings: null,
undefined and the empty string fall back to the default. -/
def jsOr (s : Option String) (dflt : String) : String :=
  match s with
  | none => dflt
  | some v => if v = "" then dflt else v

/-- Translation of parseFloat(pt.getAttribute("lat") || "0"), likewise for
lon: a missing attribute is null. -/
def parseCoordAttr (attr : Option String) : Option ℚ :=
  parseFloatJs (jsOr attr "0")

/-- Translation of eleNode ? parseFloat(eleNode.textContent || "0") : 0: the
outer option is the ele child node, the inner option its text content. -/
def parseEleNode (ele : Option (Option String)) : Option ℚ :=
  match ele with
  | none => some 0
  | some txt => parseFloatJs (jsOr txt "0")

/-- C3 (counterexample): an unparseable latitude attribute value does not
parse to 0.0 - parseFloat of a non-numeric string is NaN (modelled none), and
NaN is propagated, contradicting the claimed 0.0 default for unparseable
values. -/
theorem unparseable_coord_not_zero :
    parseCoordAttr (some "abc") = none ∧ ¬ parseCoordAttr (some "abc") = some 0 := by
  exact ⟨rfl, by decide⟩

/-- C3 (amended): a missing or empty lat/lon attribute parses to 0.0 and a
missing elevation node parses to 0.0; a non-empty attribute value is handed to
parseFloat unchanged, so an unparseable value yields NaN (none), silently
propagated - no branch raises an error. -/
theorem parse_point_defaults :
    parseCoordAttr none = some 0 ∧
    parseCoordAttr (some "") = some 0 ∧
    parseEleNode none = some 0 ∧
    parseFloatJs "abc" = none ∧
    (∀ s : String, ¬ s = "" → parseCoordAttr (some s) = parseFloatJs s) := by
  refine ⟨by decide, by decide, rfl, rfl, ?_⟩
  intro s hs
  show parseFloatJs (if s = "" then "0" else s) = parseFloatJs s
  rw [if_neg hs]

/-- Witness for C3 (amended) at the unparseable value abc: the attribute
parse agrees with the raw parseFloat model there. -/
theorem parse_point_defaults_witness :
    parseCoordAttr (some "abc") = parseFloatJs "abc" :=
  parse_point_defaults.2.2.2.2 "abc" (by decide)

end Quilt
